import Mathlib

/-!
Verification of the Feature Statistics widget
(orangecontrib/prototypes/widgets/owfeaturestatistics.py).

The development shallowly embeds the algorithmic core of the widget:

* the sort machinery of `FeatureStatisticsTableModel._argsortData`
  (numpy stable argsort with NaNs last, plus the reverse-and-roll step
  used for descending order);
* the statistics engine (`__compute_statistics` / `__compute_stat` and
  the per-kind reducers built from `scipy.stats.mode`, `ss.entropy`,
  `Orange.statistics.util.nanmean/nanvar/nanmin/nanmax/countnans`);
* `get_statistics_matrix`, the `data()` bounds guard, `commit`, and the
  selection/context behaviour of `set_data`.

Machine floats are modelled exactly: a cell of a data column is
`Option ℚ`, where `none` stands for NaN (the missing-value sentinel)
and `some q` for a finite float.  Statistic results live in `StatVal`,
which adds `inf` (the float +inf produced by dividing a positive number
by 0.0) and `irr` (a finite value, such as `sqrt 2` or an entropy, that
is irrational and therefore not representable exactly; no claim ever
depends on the numeric value of such a result, only on it not being
NaN).
-/

/-! ### Sort keys

`_argsortData` receives the raw statistic vector (`sortColumnData`), a
float array whose entries are numbers or NaN.  numpy's stable argsort
(`kind="mergesort"`) orders numbers ascending with every NaN after
every number, and breaks all ties (including NaN ties) by the original
index.  `lexLeB d` is exactly that total order on positions of `d`. -/

/-- Sort key of row `i` of column data `d` (out-of-range reads never
happen on the lists produced by the model; `none` is a safe default). -/
def keyAt (d : List (Option ℚ)) (i : ℕ) : Option ℚ := d.getD i none

/-- Strict comparison of two float cells: every number is smaller than
NaN, and NaN is not smaller than anything. -/
def valLtB : Option ℚ → Option ℚ → Bool
  | some x, some y => decide (x < y)
  | some _, none => true
  | none, _ => false

/-- The total order used by numpy's stable argsort on positions of `d`:
strictly smaller key, or equal key and not-later original position. -/
def lexLeB (d : List (Option ℚ)) (i j : ℕ) : Bool :=
  valLtB (keyAt d i) (keyAt d j) ||
    (decide (keyAt d i = keyAt d j) && decide (i ≤ j))

/-- Number of NaN entries of the column (`np.isnan(data).sum()`). -/
def countNans (d : List (Option ℚ)) : ℕ := d.countP (fun x => !x.isSome)

/-- Stable ascending argsort, NaNs last:
`np.argsort(data, kind="mergesort")`.  The result is the unique
permutation of `range n` that is sorted for `lexLeB d`; it is realised
here by insertion sort. -/
def argsortAsc (d : List (Option ℚ)) : List ℕ :=
  List.insertionSort (fun i j => lexLeB d i j = true) (List.range d.length)

/-- Left rotation, `np.roll(l, -k)` for `0 ≤ k ≤ l.length`. -/
def rotl (l : List ℕ) (k : ℕ) : List ℕ := l.drop k ++ l.take k

/-- `FeatureStatisticsTableModel._argsortData`.  Ascending: stable
argsort (NaNs naturally last).  Descending: reverse the ascending
order and, for numeric data, roll the NaN block (which reversal moved
to the front) back to the tail. -/
def argsortData (isNumeric : Bool) (d : List (Option ℚ)) (descending : Bool) :
    List ℕ :=
  if descending then
    if isNumeric then rotl (argsortAsc d).reverse (countNans d)
    else (argsortAsc d).reverse
  else argsortAsc d

/-! ### Display-row/source-row mapping

The mapping lives in the host framework's `AbstractSortTableModel`
(`mapToSourceRows` / `mapFromSourceRows`), which is not part of this
repository.  Modelled from the spec: before any sort the mapping is the
identity; after a sort the display order is the permutation returned by
`_argsortData`, `toSourceRow` reads it and `toDisplayRow` inverts it. -/

/-- Modelled from the spec: `toSourceRow` of the Sortable Projection
Model; `none` is the unsorted state. -/
def toSourceRow (st : Option (List ℕ)) (displayRow : ℕ) : ℕ :=
  match st with
  | none => displayRow
  | some perm => perm.getD displayRow 0

/-- Modelled from the spec: `toDisplayRow` of the Sortable Projection
Model, the inverse lookup of the sort permutation. -/
def toDisplayRow (st : Option (List ℕ)) (sourceRow : ℕ) : ℕ :=
  match st with
  | none => sourceRow
  | some perm => perm.indexOf sourceRow

/-! ### Basic properties of the sort order -/

theorem valLtB_self (a : Option ℚ) : valLtB a a = false := by
  cases a <;> simp [valLtB]

theorem lexLeB_total (d : List (Option ℚ)) (i j : ℕ) :
    lexLeB d i j = true ∨ lexLeB d j i = true := by
  unfold lexLeB
  rcases ha : keyAt d i with _ | x <;> rcases hb : keyAt d j with _ | y <;>
    simp [valLtB]
  · exact Nat.le_total i j
  · rcases lt_trichotomy x y with h | h | h
    · exact Or.inl (Or.inl h)
    · subst h
      rcases Nat.le_total i j with h | h
      · exact Or.inl (Or.inr ⟨rfl, h⟩)
      · exact Or.inr (Or.inr ⟨rfl, h⟩)
    · exact Or.inr (Or.inl h)

theorem lexLeB_trans (d : List (Option ℚ)) (i j k : ℕ)
    (hij : lexLeB d i j = true) (hjk : lexLeB d j k = true) :
    lexLeB d i k = true := by
  unfold lexLeB at *
  rcases ha : keyAt d i with _ | x <;> rcases hb : keyAt d j with _ | y <;>
    rcases hc : keyAt d k with _ | z <;>
      simp_all [valLtB]
  · omega
  · rcases hij with hij | hij <;> rcases hjk with hjk | hjk
    · exact Or.inl (lt_trans hij hjk)
    · exact Or.inl (hjk.1 ▸ hij)
    · exact Or.inl (hij.1 ▸ hjk)
    · exact Or.inr ⟨hij.1.trans hjk.1, le_trans hij.2 hjk.2⟩

theorem lexLeB_antisymm (d : List (Option ℚ)) (i j : ℕ)
    (hij : lexLeB d i j = true) (hji : lexLeB d j i = true) : i = j := by
  unfold lexLeB at *
  rcases ha : keyAt d i with _ | x <;> rcases hb : keyAt d j with _ | y <;>
    simp_all [valLtB]
  · omega
  · rcases hij with hij | hij <;> rcases hji with hji | hji
    · exact absurd (lt_trans hij hji) (lt_irrefl x)
    · exact absurd (hji.1 ▸ hij) (lt_irrefl x)
    · exact absurd (hij.1 ▸ hji) (lt_irrefl y)
    · omega

theorem argsortAsc_perm (d : List (Option ℚ)) :
    (argsortAsc d).Perm (List.range d.length) :=
  List.perm_insertionSort _ _

theorem argsortAsc_sorted (d : List (Option ℚ)) :
    List.Sorted (fun i j => lexLeB d i j = true) (argsortAsc d) := by
  haveI : IsTotal ℕ (fun i j => lexLeB d i j = true) := ⟨lexLeB_total d⟩
  haveI : IsTrans ℕ (fun i j => lexLeB d i j = true) :=
    ⟨fun a b c => lexLeB_trans d a b c⟩
  exact List.sorted_insertionSort _ _

/-! ### Decomposition of the argsort into value block and NaN block -/

/-- Positions of `d` holding a number. -/
def someIdx (d : List (Option ℚ)) : List ℕ :=
  (List.range d.length).filter (fun i => (keyAt d i).isSome)

/-- Positions of `d` holding NaN. -/
def noneIdx (d : List (Option ℚ)) : List ℕ :=
  (List.range d.length).filter (fun i => !(keyAt d i).isSome)

theorem mem_someIdx {d : List (Option ℚ)} {i : ℕ} :
    i ∈ someIdx d ↔ i < d.length ∧ (keyAt d i).isSome = true := by
  simp [someIdx, List.mem_filter, List.mem_range]

theorem mem_noneIdx {d : List (Option ℚ)} {i : ℕ} :
    i ∈ noneIdx d ↔ i < d.length ∧ keyAt d i = none := by
  simp [noneIdx, List.mem_filter, List.mem_range, Option.isSome_iff_ne_none]

theorem length_filter_keyAt (p : Option ℚ → Bool) :
    ∀ d : List (Option ℚ),
      ((List.range d.length).filter (fun i => p (keyAt d i))).length =
        d.countP p := by
  intro d
  induction d with
  | nil => simp
  | cons x t ih =>
      have hk0 : keyAt (x :: t) 0 = x := rfl
      have hks : ∀ i : ℕ, keyAt (x :: t) (i + 1) = keyAt t i := by
        intro i; simp [keyAt]
      simp only [List.length_cons, List.range_succ_eq_map, List.filter_cons,
        List.filter_map, List.countP_cons, hk0]
      have hcomp :
          (List.filter ((fun i => p (keyAt (x :: t) i)) ∘ Nat.succ)
            (List.range t.length)) =
          (List.filter (fun i => p (keyAt t i)) (List.range t.length)) := by
        apply List.filter_congr
        intro i _
        simp [Function.comp, hks i]
      by_cases hp : p x = true <;>
        simp [hp, hcomp, ih]

theorem length_noneIdx (d : List (Option ℚ)) :
    (noneIdx d).length = countNans d :=
  length_filter_keyAt (fun x => !x.isSome) d

/-- The inner block of the ascending argsort: the positions holding
numbers, in ascending (value, index) order. -/
def sortedSomeIdx (d : List (Option ℚ)) : List ℕ :=
  List.insertionSort (fun i j => lexLeB d i j = true) (someIdx d)

theorem sortedSomeIdx_mem {d : List (Option ℚ)} {i : ℕ} :
    i ∈ sortedSomeIdx d ↔ i ∈ someIdx d :=
  (List.perm_insertionSort _ _).mem_iff

theorem noneIdx_sorted (d : List (Option ℚ)) :
    List.Sorted (fun i j => lexLeB d i j = true) (noneIdx d) := by
  have hlt : List.Sorted (fun i j : ℕ => i < j) (noneIdx d) :=
    List.Sorted.filter _ (List.pairwise_lt_range _)
  have hmem : ∀ i ∈ noneIdx d, keyAt d i = none := fun i hi =>
    (mem_noneIdx.mp hi).2
  refine List.Pairwise.imp_of_mem ?_ hlt
  intro a b ha hb hab
  have hka := hmem a ha
  have hkb := hmem b hb
  simp [lexLeB, hka, hkb, valLtB, Nat.le_of_lt hab]

/-- Structure of the ascending argsort: first all rows holding numbers
(in ascending value order, ties by index), then all NaN rows (by
index). -/
theorem argsortAsc_eq_append (d : List (Option ℚ)) :
    argsortAsc d = sortedSomeIdx d ++ noneIdx d := by
  haveI : IsTotal ℕ (fun i j => lexLeB d i j = true) := ⟨lexLeB_total d⟩
  haveI : IsTrans ℕ (fun i j => lexLeB d i j = true) :=
    ⟨fun a b c => lexLeB_trans d a b c⟩
  haveI : IsAntisymm ℕ (fun i j => lexLeB d i j = true) :=
    ⟨fun a b => lexLeB_antisymm d a b⟩
  have h1 : (sortedSomeIdx d).Perm (someIdx d) := List.perm_insertionSort _ _
  have h2 : (someIdx d ++ noneIdx d).Perm (List.range d.length) :=
    List.filter_append_perm _ _
  apply List.eq_of_perm_of_sorted (r := fun i j => lexLeB d i j = true)
  · exact (argsortAsc_perm d).trans
      (((h1.append_right _).trans h2).symm)
  · exact argsortAsc_sorted d
  · rw [List.Sorted, List.pairwise_append]
    refine ⟨List.sorted_insertionSort _ _, noneIdx_sorted d, ?_⟩
    intro a ha b hb
    have hka : (keyAt d a).isSome = true :=
      (mem_someIdx.mp (sortedSomeIdx_mem.mp ha)).2
    have hkb : keyAt d b = none := (mem_noneIdx.mp hb).2
    rcases Option.isSome_iff_exists.mp hka with ⟨x, hx⟩
    simp [lexLeB, hx, hkb, valLtB]

theorem rotl_perm (l : List ℕ) (k : ℕ) : (rotl l k).Perm l := by
  have h := @List.perm_append_comm ℕ (l.drop k) (l.take k)
  rw [List.take_append_drop] at h
  exact h

theorem argsortData_perm (isNumeric : Bool) (d : List (Option ℚ))
    (descending : Bool) :
    (argsortData isNumeric d descending).Perm (List.range d.length) := by
  cases descending with
  | false => simpa [argsortData] using argsortAsc_perm d
  | true =>
      cases isNumeric with
      | false =>
          simpa [argsortData] using
            (List.reverse_perm _).trans (argsortAsc_perm d)
      | true =>
          simpa [argsortData] using
            (rotl_perm _ _).trans
              ((List.reverse_perm _).trans (argsortAsc_perm d))

theorem length_argsortData (isNumeric : Bool) (d : List (Option ℚ))
    (descending : Bool) :
    (argsortData isNumeric d descending).length = d.length := by
  rw [(argsortData_perm isNumeric d descending).length_eq, List.length_range]

/-- The descending numeric argsort is the reversed number block followed
by the reversed NaN block. -/
theorem argsortDesc_eq (d : List (Option ℚ)) :
    argsortData true d true =
      (sortedSomeIdx d).reverse ++ (noneIdx d).reverse := by
  have h0 : argsortData true d true =
      rotl (argsortAsc d).reverse (countNans d) := rfl
  rw [h0, argsortAsc_eq_append, List.reverse_append]
  unfold rotl
  rw [← length_noneIdx, ← List.length_reverse (noneIdx d),
    List.drop_left, List.take_left]

/-! ### Positions of entries within a two-block permutation -/

theorem getD_append_of_lt {X Y : List ℕ} {p : ℕ} (h : p < X.length) :
    (X ++ Y).getD p 0 = X.getD p 0 := by
  have hlt : p < (X ++ Y).length := by
    rw [List.length_append]; omega
  rw [List.getD_eq_getElem _ _ hlt, List.getD_eq_getElem _ _ h,
    List.getElem_append]
  simp [h]

theorem getD_append_of_ge {X Y : List ℕ} {p : ℕ} (h : X.length ≤ p)
    (hlt : p < (X ++ Y).length) :
    (X ++ Y).getD p 0 = Y.getD (p - X.length) 0 := by
  have hy : p - X.length < Y.length := by
    rw [List.length_append] at hlt; omega
  rw [List.getD_eq_getElem _ _ hlt, List.getD_eq_getElem _ _ hy,
    List.getElem_append]
  simp [Nat.not_lt.mpr h]

/-- In a display order made of a number block followed by a NaN block,
every NaN row sits strictly after every number row. -/
theorem nan_block_last (d : List (Option ℚ)) (X Y : List ℕ)
    (hX : ∀ i ∈ X, keyAt d i ≠ none) (hY : ∀ i ∈ Y, keyAt d i = none)
    (p q : ℕ) (_hp : p < (X ++ Y).length) (hq : q < (X ++ Y).length)
    (hnanp : keyAt d ((X ++ Y).getD p 0) = none)
    (hnumq : keyAt d ((X ++ Y).getD q 0) ≠ none) : q < p := by
  have hpX : ¬ p < X.length := by
    intro hlt
    apply hX ((X ++ Y).getD p 0) _ hnanp
    rw [getD_append_of_lt hlt, List.getD_eq_getElem _ _ hlt]
    exact List.getElem_mem hlt
  have hqX : q < X.length := by
    by_contra hge
    apply hnumq
    apply hY
    rw [getD_append_of_ge (Nat.not_lt.mp hge) hq]
    have hy : q - X.length < Y.length := by
      rw [List.length_append] at hq; omega
    rw [List.getD_eq_getElem _ _ hy]
    exact List.getElem_mem hy
  omega

/-- Claim C1: for every statistic column and both sort directions, after
sorting, every row whose sort-key value is NaN appears in display order
strictly after every row whose sort-key value is non-NaN: if display
position `p` holds a NaN row and display position `q` holds a non-NaN
row, then `q < p`. -/
theorem C1_nan_rows_sort_last (d : List (Option ℚ)) (descending : Bool)
    (p q : ℕ) (hp : p < d.length) (hq : q < d.length)
    (hnanp : keyAt d (toSourceRow (some (argsortData true d descending)) p)
      = none)
    (hnumq : keyAt d (toSourceRow (some (argsortData true d descending)) q)
      ≠ none) :
    q < p := by
  have hXsome : ∀ i ∈ sortedSomeIdx d, keyAt d i ≠ none := by
    intro i hi
    have := (mem_someIdx.mp (sortedSomeIdx_mem.mp hi)).2
    exact Option.isSome_iff_ne_none.mp this
  have hYnone : ∀ i ∈ noneIdx d, keyAt d i = none := fun i hi =>
    (mem_noneIdx.mp hi).2
  cases descending with
  | false =>
      have hperm : argsortData true d false = sortedSomeIdx d ++ noneIdx d := by
        have h0 : argsortData true d false = argsortAsc d := rfl
        rw [h0, argsortAsc_eq_append]
      rw [hperm] at hnanp hnumq
      have hlen : (sortedSomeIdx d ++ noneIdx d).length = d.length := by
        rw [← hperm]; exact length_argsortData true d false
      exact nan_block_last d _ _ hXsome hYnone p q (hlen ▸ hp) (hlen ▸ hq)
        hnanp hnumq
  | true =>
      have hperm : argsortData true d true =
          (sortedSomeIdx d).reverse ++ (noneIdx d).reverse := argsortDesc_eq d
      rw [hperm] at hnanp hnumq
      have hlen : ((sortedSomeIdx d).reverse ++ (noneIdx d).reverse).length
          = d.length := by
        rw [← hperm]; exact length_argsortData true d true
      exact nan_block_last d _ _
        (fun i hi => hXsome i (List.mem_reverse.mp hi))
        (fun i hi => hYnone i (List.mem_reverse.mp hi))
        p q (hlen ▸ hp) (hlen ▸ hq) hnanp hnumq

/-- Witness for C1 on a concrete column: in `[2, NaN, 1]` sorted
descending, the NaN row is displayed at position 2 and the row holding
`1` at position 1, so `1 < 2`. -/
theorem C1_nan_rows_sort_last_witness :
    (1 : ℕ) < 2 :=
  C1_nan_rows_sort_last [some 2, none, some 1] true 2 1
    (by decide) (by decide) (by decide) (by decide)

/-! ### Stability -/

theorem lexLeB_tie_le {d : List (Option ℚ)} {i j : ℕ}
    (htie : keyAt d i = keyAt d j) (h : lexLeB d i j = true) : i ≤ j := by
  unfold lexLeB at h
  rw [htie, valLtB_self] at h
  simpa using h

theorem sorted_rel_getD {R : ℕ → ℕ → Prop} {l : List ℕ}
    (h : List.Pairwise R l) {i j : ℕ} (hij : i < j) (hj : j < l.length) :
    R (l.getD i 0) (l.getD j 0) := by
  rw [List.getD_eq_getElem _ _ (lt_trans hij hj), List.getD_eq_getElem _ _ hj]
  exact List.pairwise_iff_getElem.mp h i j (lt_trans hij hj) hj hij

theorem getD_mem_of_lt {l : List ℕ} {p : ℕ} (h : p < l.length) :
    l.getD p 0 ∈ l := by
  rw [List.getD_eq_getElem _ _ h]
  exact List.getElem_mem h

theorem nodup_getD_inj {l : List ℕ} (hnd : l.Nodup) {i j : ℕ}
    (hi : i < l.length) (hj : j < l.length)
    (he : l.getD i 0 = l.getD j 0) : i = j := by
  rw [List.getD_eq_getElem _ _ hi, List.getD_eq_getElem _ _ hj] at he
  exact (List.Nodup.getElem_inj_iff hnd).mp he

theorem getD_reverse_eq {l : List ℕ} {p : ℕ} (h : p < l.length) :
    l.reverse.getD p 0 = l.getD (l.length - 1 - p) 0 := by
  have h2 : p < l.reverse.length := by rw [List.length_reverse]; exact h
  have h3 : l.length - 1 - p < l.length := by omega
  rw [List.getD_eq_getElem _ _ h2, List.getD_eq_getElem _ _ h3,
    List.getElem_reverse]

theorem argsortAsc_nodup (d : List (Option ℚ)) : (argsortAsc d).Nodup :=
  ((argsortAsc_perm d).nodup_iff).mpr (List.nodup_range _)

theorem sortedSomeIdx_sorted (d : List (Option ℚ)) :
    List.Sorted (fun i j => lexLeB d i j = true) (sortedSomeIdx d) := by
  haveI : IsTotal ℕ (fun i j => lexLeB d i j = true) := ⟨lexLeB_total d⟩
  haveI : IsTrans ℕ (fun i j => lexLeB d i j = true) :=
    ⟨fun a b c => lexLeB_trans d a b c⟩
  exact List.sorted_insertionSort _ _

theorem sortedSomeIdx_nodup (d : List (Option ℚ)) : (sortedSomeIdx d).Nodup :=
  ((List.perm_insertionSort _ _).nodup_iff).mpr
    ((List.nodup_range _).filter _)

theorem noneIdx_lt_sorted (d : List (Option ℚ)) :
    List.Sorted (fun i j : ℕ => i < j) (noneIdx d) :=
  List.Sorted.filter _ (List.pairwise_lt_range _)

/-- Amended claim C2: ascending sorts are stable (a pair of rows with
equal sort keys keeps its source order in display order), while
descending sorts reverse the relative order of tied rows. -/
theorem C2_ascending_stable_descending_reverses (d : List (Option ℚ))
    (p q : ℕ) (hpq : p < q) (hq : q < d.length) :
    (keyAt d (toSourceRow (some (argsortData true d false)) p) =
        keyAt d (toSourceRow (some (argsortData true d false)) q) →
      toSourceRow (some (argsortData true d false)) p <
        toSourceRow (some (argsortData true d false)) q)
    ∧
    (keyAt d (toSourceRow (some (argsortData true d true)) p) =
        keyAt d (toSourceRow (some (argsortData true d true)) q) →
      toSourceRow (some (argsortData true d true)) q <
        toSourceRow (some (argsortData true d true)) p) := by
  constructor
  · intro htie
    have hperm : argsortData true d false = argsortAsc d := rfl
    simp only [toSourceRow, hperm] at htie ⊢
    have hlen : (argsortAsc d).length = d.length :=
      (argsortAsc_perm d).length_eq.trans (List.length_range _)
    have hql : q < (argsortAsc d).length := by omega
    have hrel := sorted_rel_getD (argsortAsc_sorted d) hpq hql
    have hle := lexLeB_tie_le htie hrel
    have hne : (argsortAsc d).getD p 0 ≠ (argsortAsc d).getD q 0 := by
      intro he
      exact absurd (nodup_getD_inj (argsortAsc_nodup d)
        (lt_trans hpq hql) hql he) (Nat.ne_of_lt hpq)
    omega
  · intro htie
    have hperm : argsortData true d true =
        (sortedSomeIdx d).reverse ++ (noneIdx d).reverse := argsortDesc_eq d
    simp only [toSourceRow, hperm] at htie ⊢
    have hlen : ((sortedSomeIdx d).reverse ++ (noneIdx d).reverse).length
        = d.length := by
      rw [← hperm]; exact length_argsortData true d true
    have hql : q < ((sortedSomeIdx d).reverse ++ (noneIdx d).reverse).length :=
      by omega
    have hpl : p < ((sortedSomeIdx d).reverse ++ (noneIdx d).reverse).length :=
      by omega
    by_cases hpA : p < (sortedSomeIdx d).reverse.length
    · -- the row at display position p holds a number, hence so does the
      -- one at q, and both display positions lie in the reversed number
      -- block
      have hqA : q < (sortedSomeIdx d).reverse.length := by
        by_contra hge
        have hqB : ((sortedSomeIdx d).reverse ++ (noneIdx d).reverse).getD q 0
            = (noneIdx d).reverse.getD (q - (sortedSomeIdx d).reverse.length) 0 :=
          getD_append_of_ge (Nat.not_lt.mp hge) hql
        have hq2 : q - (sortedSomeIdx d).reverse.length
            < (noneIdx d).reverse.length := by
          rw [List.length_append] at hql; omega
        have hmem : (noneIdx d).reverse.getD
            (q - (sortedSomeIdx d).reverse.length) 0 ∈ noneIdx d :=
          List.mem_reverse.mp (getD_mem_of_lt hq2)
        have hnone := (mem_noneIdx.mp hmem).2
        have hpEq : ((sortedSomeIdx d).reverse ++ (noneIdx d).reverse).getD p 0
            = (sortedSomeIdx d).reverse.getD p 0 := getD_append_of_lt hpA
        have hmemp : (sortedSomeIdx d).reverse.getD p 0 ∈ sortedSomeIdx d :=
          List.mem_reverse.mp (getD_mem_of_lt hpA)
        have hsome := (mem_someIdx.mp (sortedSomeIdx_mem.mp hmemp)).2
        rw [hpEq, hqB, hnone] at htie
        rw [htie] at hsome
        simp at hsome
      have hA : (sortedSomeIdx d).reverse.length = (sortedSomeIdx d).length :=
        List.length_reverse _
      have hpEq : ((sortedSomeIdx d).reverse ++ (noneIdx d).reverse).getD p 0
          = (sortedSomeIdx d).getD ((sortedSomeIdx d).length - 1 - p) 0 := by
        rw [getD_append_of_lt hpA, getD_reverse_eq (hA ▸ hpA)]
      have hqEq : ((sortedSomeIdx d).reverse ++ (noneIdx d).reverse).getD q 0
          = (sortedSomeIdx d).getD ((sortedSomeIdx d).length - 1 - q) 0 := by
        rw [getD_append_of_lt hqA, getD_reverse_eq (hA ▸ hqA)]
      rw [hpEq, hqEq] at htie ⊢
      have hij : (sortedSomeIdx d).length - 1 - q
          < (sortedSomeIdx d).length - 1 - p := by
        rw [hA] at hpA hqA; omega
      have hjl : (sortedSomeIdx d).length - 1 - p
          < (sortedSomeIdx d).length := by
        rw [hA] at hpA; omega
      have hrel := sorted_rel_getD (sortedSomeIdx_sorted d) hij hjl
      have hle := lexLeB_tie_le htie.symm hrel
      have hne : (sortedSomeIdx d).getD ((sortedSomeIdx d).length - 1 - q) 0
          ≠ (sortedSomeIdx d).getD ((sortedSomeIdx d).length - 1 - p) 0 := by
        intro he
        have := nodup_getD_inj (sortedSomeIdx_nodup d)
          (lt_trans hij hjl) hjl he
        omega
      omega
    · -- the row at display position p holds NaN, hence so does the one
      -- at q, and both display positions lie in the reversed NaN block
      have hpB : ((sortedSomeIdx d).reverse ++ (noneIdx d).reverse).getD p 0
          = (noneIdx d).reverse.getD (p - (sortedSomeIdx d).reverse.length) 0 :=
        getD_append_of_ge (Nat.not_lt.mp hpA) hpl
      have hp2 : p - (sortedSomeIdx d).reverse.length
          < (noneIdx d).reverse.length := by
        rw [List.length_append] at hpl; omega
      have hqA : ¬ q < (sortedSomeIdx d).reverse.length := by omega
      have hqB : ((sortedSomeIdx d).reverse ++ (noneIdx d).reverse).getD q 0
          = (noneIdx d).reverse.getD (q - (sortedSomeIdx d).reverse.length) 0 :=
        getD_append_of_ge (Nat.not_lt.mp hqA) hql
      have hq2 : q - (sortedSomeIdx d).reverse.length
          < (noneIdx d).reverse.length := by
        rw [List.length_append] at hql; omega
      have hB : (noneIdx d).reverse.length = (noneIdx d).length :=
        List.length_reverse _
      rw [hpB, hqB]
      rw [getD_reverse_eq (hB ▸ hq2), getD_reverse_eq (hB ▸ hp2)]
      apply sorted_rel_getD (noneIdx_lt_sorted d)
      · rw [hB] at hp2 hq2; omega
      · rw [hB] at hp2; omega

/-- Witness for the amended C2 on the column `[1, 1, NaN]`: ascending
display order is `[0, 1, 2]` (tied rows 0, 1 in source order) and
descending display order is `[1, 0, 2]` (tied rows reversed). -/
theorem C2_ascending_stable_descending_reverses_witness :
    toSourceRow (some (argsortData true [some (1 : ℚ), some 1, none] false)) 0
      < toSourceRow (some (argsortData true [some (1 : ℚ), some 1, none] false)) 1
    ∧ toSourceRow (some (argsortData true [some (1 : ℚ), some 1, none] true)) 1
      < toSourceRow (some (argsortData true [some (1 : ℚ), some 1, none] true)) 0 := by
  have h := C2_ascending_stable_descending_reverses
    [some (1 : ℚ), some 1, none] 0 1 (by decide) (by decide)
  exact ⟨h.1 (by decide), h.2 (by decide)⟩

/-- Counterexample to claim C2 as stated: sorting the column `[5, 5]`
descending displays row 1 before row 0, although the two rows are tied,
so the descending sort does not preserve the source order of ties. -/
theorem C2_counterexample :
    keyAt [some (5 : ℚ), some 5] 0 = keyAt [some (5 : ℚ), some 5] 1
    ∧ toSourceRow (some (argsortData true [some (5 : ℚ), some 5] true)) 0 = 1
    ∧ toSourceRow (some (argsortData true [some (5 : ℚ), some 5] true)) 1 = 0 := by
  decide

/-! ### Round-trip of the display/source mapping -/

theorem getD_indexOf : ∀ (l : List ℕ) (a : ℕ), a ∈ l →
    l.getD (l.indexOf a) 0 = a := by
  intro l
  induction l with
  | nil => intro a ha; cases ha
  | cons b t ih =>
      intro a ha
      by_cases hba : b = a
      · subst hba
        rw [List.indexOf_cons_self]
        rfl
      · have hat : a ∈ t := by
          rcases List.mem_cons.mp ha with h | h
          · exact absurd h.symm hba
          · exact h
        rw [List.indexOf_cons_ne _ (fun he => hba he), List.getD_cons_succ]
        exact ih a hat

/-- Claim C3: the sort permutation produced by `_argsortData` is a
bijection on the source rows, and mapping a source row to its display
row and back is the identity, both in the unsorted state and after any
sort call (every sort recomputes the permutation from scratch, so any
sequence of sort calls ends in one of the two states covered here). -/
theorem C3_roundtrip_and_bijection (d : List (Option ℚ)) (descending : Bool)
    (r : ℕ) (hr : r < d.length) :
    toSourceRow none (toDisplayRow none r) = r
    ∧ toSourceRow (some (argsortData true d descending))
        (toDisplayRow (some (argsortData true d descending)) r) = r
    ∧ (argsortData true d descending).Perm (List.range d.length) := by
  refine ⟨rfl, ?_, argsortData_perm true d descending⟩
  have hmem : r ∈ argsortData true d descending :=
    (argsortData_perm true d descending).mem_iff.mpr (List.mem_range.mpr hr)
  simp only [toSourceRow, toDisplayRow]
  exact getD_indexOf _ _ hmem

/-- Witness for C3 on the column `[2, NaN, 1]` sorted descending. -/
theorem C3_roundtrip_and_bijection_witness :
    toSourceRow none (toDisplayRow none 0) = 0
    ∧ toSourceRow (some (argsortData true [some (2 : ℚ), none, some 1] true))
        (toDisplayRow
          (some (argsortData true [some (2 : ℚ), none, some 1] true)) 0) = 0
    ∧ (argsortData true [some (2 : ℚ), none, some 1] true).Perm
        (List.range 3) :=
  C3_roundtrip_and_bijection [some (2 : ℚ), none, some 1] true 0 (by decide)

/-! ### Statistics engine

The per-column statistics of `__compute_statistics`.  Columns hold
`Option ℚ` cells (`none` is the missing sentinel: NaN for numeric and
discrete columns, the empty string for text columns).  Results are
`StatVal`s. -/

/-- Result of a statistic computation: NaN, +infinity, an exactly
represented finite value, or a finite value that is irrational (such as
a nontrivial entropy or square root) and hence carries no exact rational
representation in this model. -/
inductive StatVal where
  | nan : StatVal
  | inf : StatVal
  | val : ℚ → StatVal
  | irr : StatVal
deriving DecidableEq

/-- The four variable kinds distinguished by `_attr_indices`
(`DiscreteVariable`, `ContinuousVariable` that is not a `TimeVariable`,
`TimeVariable`, `StringVariable`). -/
inductive VarKind where
  | discrete : VarKind
  | continuous : VarKind
  | time : VarKind
  | string : VarKind
deriving DecidableEq

/-- A variable: its name and semantic kind. -/
structure Var where
  name : String
  kind : VarKind
deriving DecidableEq

/-- `HIDDEN_VAR_TYPES = (StringVariable, TimeVariable)`. -/
def hiddenKind : VarKind → Bool
  | VarKind.string => true
  | VarKind.time => true
  | _ => false

/-- `__filter_attributes`: drop the columns whose variable kind is
hidden, keeping variables aligned with their data columns. -/
def filterAttributes (g : List (Var × List (Option ℚ))) :
    List (Var × List (Option ℚ)) :=
  g.filter (fun vc => !hiddenKind vc.1.kind)

/-- The non-missing cells of a column, in row order. -/
def validVals (col : List (Option ℚ)) : List ℚ := col.filterMap id

/-- `np.nanmean` (as used through `Orange.statistics.util.nanmean`):
mean of the non-missing cells, NaN if there are none. -/
def nanmeanQ (col : List (Option ℚ)) : Option ℚ :=
  match validVals col with
  | [] => none
  | v => some (v.sum / v.length)

/-- `np.nanvar` (ddof 0): mean squared deviation of the non-missing
cells from their mean, NaN if there are none. -/
def nanvarQ (col : List (Option ℚ)) : Option ℚ :=
  match validVals col with
  | [] => none
  | v => some (((v.map (fun x => (x - v.sum / v.length) ^ 2)).sum) / v.length)

/-- `np.nanmin`: smallest non-missing cell, NaN if there are none. -/
def nanminQ (col : List (Option ℚ)) : Option ℚ :=
  match validVals col with
  | [] => none
  | x :: xs => some (xs.foldl min x)

/-- `np.nanmax`: largest non-missing cell, NaN if there are none. -/
def nanmaxQ (col : List (Option ℚ)) : Option ℚ :=
  match validVals col with
  | [] => none
  | x :: xs => some (xs.foldl max x)

/-- Lift an optional rational to a `StatVal`. -/
def ofOptQ : Option ℚ → StatVal
  | none => StatVal.nan
  | some q => StatVal.val q

/-- Continuous center reducer: `ut.nanmean(x, axis=0)`. -/
def meanStat (col : List (Option ℚ)) : StatVal := ofOptQ (nanmeanQ col)

/-- Min reducer: `ut.nanmin(x, axis=0)`. -/
def minStat (col : List (Option ℚ)) : StatVal := ofOptQ (nanminQ col)

/-- Max reducer: `ut.nanmax(x, axis=0)`. -/
def maxStat (col : List (Option ℚ)) : StatVal := ofOptQ (nanmaxQ col)

/-- Missing-count reducer: `ut.countnans(x, axis=0)`. -/
def missingStat (col : List (Option ℚ)) : StatVal :=
  StatVal.val ((countNans col : ℚ))

/-- Missing-count reducer for text columns,
`(x == StringVariable.Unknown).sum(axis=0)`; the empty-string sentinel
of a text cell is modelled as `none`, so this is again the count of
missing cells. -/
def stringMissingStat (col : List (Option ℚ)) : StatVal :=
  StatVal.val ((countNans col : ℚ))

/-- Exact square root of a nonnegative rational, when it exists. -/
def exactSqrtQ (q : ℚ) : Option ℚ :=
  if 0 ≤ q.num ∧ Nat.sqrt q.num.toNat * Nat.sqrt q.num.toNat = q.num.toNat
      ∧ Nat.sqrt q.den * Nat.sqrt q.den = q.den
  then some ((Nat.sqrt q.num.toNat : ℚ) / (Nat.sqrt q.den : ℚ))
  else none

/-- Continuous dispersion reducer, the coefficient of variation
`np.sqrt(ut.nanvar(x, axis=0)) / ut.nanmean(x, axis=0)` with float
semantics: NaN if the variance or mean is NaN (all cells missing), NaN
for `sqrt 0 / 0`, `+inf` for `sqrt v / 0` with `v > 0`, the exact
quotient when the square root is rational, and an irrational finite
value (`irr`) otherwise.  (A float variance is never negative; the
`v < 0` branch mirrors `sqrt` of a negative float being NaN and is
unreachable.) -/
def cvStat (col : List (Option ℚ)) : StatVal :=
  match nanvarQ col, nanmeanQ col with
  | none, _ => StatVal.nan
  | some _, none => StatVal.nan
  | some v, some m =>
      if v < 0 then StatVal.nan
      else if v = 0 then (if m = 0 then StatVal.nan else StatVal.val 0)
      else if m = 0 then StatVal.inf
      else
        match exactSqrtQ v with
        | some s => StatVal.val (s / m)
        | none => StatVal.irr

/-- Discrete center reducer, `ss.mode(x)[0]` column-wise (scipy of the
repository's era): iterate over the sorted distinct values; a value
replaces the current best only when its count strictly exceeds the best
count, starting from `(0.0, 0)`.  NaN never matches `==`, so NaN scores
count 0 and never win; an all-NaN column therefore yields the initial
`0.0`, and ties go to the smallest value. -/
def modeQ (col : List (Option ℚ)) : ℚ :=
  (((validVals col).dedup.insertionSort (fun a b : ℚ => a ≤ b)).foldl
    (fun best s =>
      if (validVals col).count s > best.2 then (s, (validVals col).count s)
      else best)
    ((0 : ℚ), (0 : ℕ))).1

/-- Discrete center reducer as a `StatVal` (scipy mode always returns a
number, never NaN). -/
def modeStat (col : List (Option ℚ)) : StatVal := StatVal.val (modeQ col)

/-- Truncation of a float category code to an integer
(`astype(np.int32)` on nonnegative codes). -/
def floorNat (q : ℚ) : ℕ := q.floor.toNat

/-- `Orange.statistics.util.bincount` on one column: drop NaNs, cast to
integers, count occurrences of `0 .. max`; the empty column gives an
empty count vector. -/
def bincountQ (col : List (Option ℚ)) : List ℕ :=
  match (validVals col).map floorNat with
  | [] => []
  | codes => (List.range (codes.foldl max 0 + 1)).map (fun i => codes.count i)

/-- `ss.entropy` of a count vector `pk` (natural log):
`pk` is normalised to probabilities and `-Σ p·ln p` is returned.  An
empty vector sums to `-Σ over nothing = 0.0`.  A vector whose every
count is `0` or the total has every probability `0` or `1`, so each
term `p·ln p` vanishes and the entropy is exactly `0.0`.  Any other
vector has a probability strictly between 0 and 1, and the entropy
`(1/T)·ln ∏ (T/cᵢ)^cᵢ` is the natural log of a rational greater than 1,
hence a positive irrational number (`irr`).  A nonempty vector with
total 0 would divide 0 by 0 (NaN); `bincountQ` never produces one. -/
def entropyStat (counts : List ℕ) : StatVal :=
  if counts.isEmpty then StatVal.val 0
  else if counts.sum = 0 then StatVal.nan
  else if counts.all (fun c => c == 0 || c == counts.sum) then StatVal.val 0
  else StatVal.irr

/-- Discrete dispersion reducer, `_categorical_entropy` column-wise:
`ss.entropy` of the per-column `ut.bincount`. -/
def discreteEntropyStat (col : List (Option ℚ)) : StatVal :=
  entropyStat (bincountQ col)

/-! ### `__compute_stat`: dispatch of the reducers over the groups -/

/-- Data size occupied by the columns of kind `k` in group `g`: the
size of the submatrix `x[:, kind_idx]` selected by `_attr_indices`. -/
def kindSize (g : List (Var × List (Option ℚ))) (k : VarKind) : ℕ :=
  ((g.filter (fun vc => vc.1.kind == k)).map (fun vc => vc.2.length)).sum

/-- One position of the scatter
`result[kind_idx] = kind_f(x[:, kind_idx])` of `__compute_stat`: the
position keeps the default NaN unless a reducer is supplied for the
kind and the kind's submatrix is nonempty (the `if x_.size:` guard).
All reducers passed by `__compute_statistics` act column-wise, so the
batched submatrix call is embedded per column. -/
def applyReducer (g : List (Var × List (Option ℚ)))
    (fo : Option (List (Option ℚ) → StatVal)) (k : VarKind)
    (col : List (Option ℚ)) : StatVal :=
  match fo with
  | none => StatVal.nan
  | some f => if kindSize g k = 0 then StatVal.nan else f col

/-- Per-group body of `__compute_stat`: a result entry for every
variable of the (already filtered) group, by kind. -/
def computeStatGroup (fd fc ft fs : Option (List (Option ℚ) → StatVal))
    (g : List (Var × List (Option ℚ))) : List StatVal :=
  g.map (fun vc =>
    match vc.1.kind with
    | VarKind.discrete => applyReducer g fd VarKind.discrete vc.2
    | VarKind.continuous => applyReducer g fc VarKind.continuous vc.2
    | VarKind.time => applyReducer g ft VarKind.time vc.2
    | VarKind.string => applyReducer g fs VarKind.string vc.2)

/-- Size of a group's matrix (`tup[1].size`, the number of cells). -/
def groupSize (g : List (Var × List (Option ℚ))) : ℕ :=
  (g.map (fun vc => vc.2.length)).sum

/-- `__compute_stat`: drop the groups whose matrix has size 0, apply
the reducers group-wise, concatenate (`np.hstack`). -/
def computeStat (groups : List (List (Var × List (Option ℚ))))
    (fd fc ft fs : Option (List (Option ℚ) → StatVal)) : List StatVal :=
  ((groups.filter (fun g => decide (groupSize g ≠ 0))).map
    (computeStatGroup fd fc ft fs)).flatten

/-- The three filtered groups held by the model after `set_data`:
`__attributes`, `__class_vars`, `__metas`. -/
def modelGroups (attrs cvars metas : List (Var × List (Option ℚ))) :
    List (List (Var × List (Option ℚ))) :=
  [filterAttributes attrs, filterAttributes cvars, filterAttributes metas]

/-- `self._center`. -/
def centerVec (groups : List (List (Var × List (Option ℚ)))) : List StatVal :=
  computeStat groups (some modeStat) (some meanStat) none none

/-- `self._dispersion`. -/
def dispersionVec (groups : List (List (Var × List (Option ℚ)))) :
    List StatVal :=
  computeStat groups (some discreteEntropyStat) (some cvStat) none none

/-- `self._min`. -/
def minVec (groups : List (List (Var × List (Option ℚ)))) : List StatVal :=
  computeStat groups (some minStat) (some minStat) none none

/-- `self._max`. -/
def maxVec (groups : List (List (Var × List (Option ℚ)))) : List StatVal :=
  computeStat groups (some maxStat) (some maxStat) none none

/-- `self._missing`. -/
def missingVec (groups : List (List (Var × List (Option ℚ)))) : List StatVal :=
  computeStat groups (some missingStat) (some missingStat)
    (some missingStat) (some stringMissingStat)

/-- `self.variables`: the canonical ordering (attributes, class vars,
metas) with hidden kinds removed. -/
def visibleVars (attrs cvars metas : List (Var × List (Option ℚ))) :
    List Var :=
  (filterAttributes attrs ++ filterAttributes cvars ++
    filterAttributes metas).map Prod.fst

/-- `self.n_attributes`. -/
def nAttributes (attrs cvars metas : List (Var × List (Option ℚ))) : ℕ :=
  (visibleVars attrs cvars metas).length

/-! ### All-missing and constant columns -/

theorem validVals_replicate_none (n : ℕ) :
    validVals (List.replicate n (none : Option ℚ)) = [] := by
  simp [validVals]

theorem countNans_replicate_none (n : ℕ) :
    countNans (List.replicate n (none : Option ℚ)) = n := by
  simp [countNans, List.countP_replicate]

theorem computeStat_singleton (v : Var) (col : List (Option ℚ))
    (fd fc ft fs : Option (List (Option ℚ) → StatVal))
    (hk : hiddenKind v.kind = false) (hc : col.length ≠ 0) :
    computeStat (modelGroups [(v, col)] [] []) fd fc ft fs =
      computeStatGroup fd fc ft fs [(v, col)] := by
  unfold computeStat modelGroups filterAttributes
  simp [hk, groupSize, hc]

/-- Amended claim C4: an all-missing column of a dataset with `n ≥ 1`
rows yields, without any error, Missing = n and Min = Max = NaN for
both visible kinds; for a continuous column Center and Dispersion are
NaN as well, but for a categorical column Center is `0.0` (the
zero-initialised scipy mode of a column with no matching value) and
Dispersion is `0.0` (the entropy of an empty bincount). -/
theorem C4_all_missing_column (n : ℕ) (hn : 1 ≤ n) (name : String) :
    (centerVec (modelGroups
        [(⟨name, VarKind.continuous⟩, List.replicate n none)] [] [])
        = [StatVal.nan]
      ∧ dispersionVec (modelGroups
        [(⟨name, VarKind.continuous⟩, List.replicate n none)] [] [])
        = [StatVal.nan]
      ∧ minVec (modelGroups
        [(⟨name, VarKind.continuous⟩, List.replicate n none)] [] [])
        = [StatVal.nan]
      ∧ maxVec (modelGroups
        [(⟨name, VarKind.continuous⟩, List.replicate n none)] [] [])
        = [StatVal.nan]
      ∧ missingVec (modelGroups
        [(⟨name, VarKind.continuous⟩, List.replicate n none)] [] [])
        = [StatVal.val n])
    ∧ (centerVec (modelGroups
        [(⟨name, VarKind.discrete⟩, List.replicate n none)] [] [])
        = [StatVal.val 0]
      ∧ dispersionVec (modelGroups
        [(⟨name, VarKind.discrete⟩, List.replicate n none)] [] [])
        = [StatVal.val 0]
      ∧ minVec (modelGroups
        [(⟨name, VarKind.discrete⟩, List.replicate n none)] [] [])
        = [StatVal.nan]
      ∧ maxVec (modelGroups
        [(⟨name, VarKind.discrete⟩, List.replicate n none)] [] [])
        = [StatVal.nan]
      ∧ missingVec (modelGroups
        [(⟨name, VarKind.discrete⟩, List.replicate n none)] [] [])
        = [StatVal.val n]) := by
  have hlen : (List.replicate n (none : Option ℚ)).length = n := by simp
  have hc : (List.replicate n (none : Option ℚ)).length ≠ 0 := by omega
  have hvv := validVals_replicate_none n
  have hcn := countNans_replicate_none n
  have hcCont := computeStat_singleton ⟨name, VarKind.continuous⟩
    (List.replicate n none)
  have hcDisc := computeStat_singleton ⟨name, VarKind.discrete⟩
    (List.replicate n none)
  constructor
  · refine ⟨?_, ?_, ?_, ?_, ?_⟩ <;>
      simp only [centerVec, dispersionVec, minVec, maxVec, missingVec,
        hcCont _ _ _ _ rfl hc] <;>
      simp [computeStatGroup, applyReducer, kindSize, hc, meanStat, cvStat,
        minStat, maxStat, missingStat, ofOptQ, nanmeanQ, nanvarQ, nanminQ,
        nanmaxQ, hvv, hcn] <;> omega
  · refine ⟨?_, ?_, ?_, ?_, ?_⟩ <;>
      simp only [centerVec, dispersionVec, minVec, maxVec, missingVec,
        hcDisc _ _ _ _ rfl hc] <;>
      simp [computeStatGroup, applyReducer, kindSize, hc, modeStat, modeQ,
        discreteEntropyStat, bincountQ, entropyStat, minStat, maxStat,
        missingStat, ofOptQ, nanminQ, nanmaxQ, hvv, hcn] <;> omega

/-- Witness for the amended C4 at `n = 5`. -/
theorem C4_all_missing_column_witness :
    centerVec (modelGroups
        [(⟨"x", VarKind.continuous⟩, List.replicate 5 none)] [] [])
      = [StatVal.nan]
    ∧ centerVec (modelGroups
        [(⟨"x", VarKind.discrete⟩, List.replicate 5 none)] [] [])
      = [StatVal.val 0] :=
  ⟨(C4_all_missing_column 5 (by norm_num) "x").1.1,
    (C4_all_missing_column 5 (by norm_num) "x").2.1⟩

/-- Counterexample to claim C4 as stated: for a categorical all-missing
column (the test file's `rgb_all_missing`), Center and Dispersion are
computed as `0.0`, not NaN. -/
theorem C4_counterexample :
    centerVec (modelGroups
        [(⟨"rgb_all_missing", VarKind.discrete⟩,
          List.replicate 5 (none : Option ℚ))] [] [])
      = [StatVal.val 0]
    ∧ dispersionVec (modelGroups
        [(⟨"rgb_all_missing", VarKind.discrete⟩,
          List.replicate 5 (none : Option ℚ))] [] [])
      = [StatVal.val 0]
    ∧ StatVal.val 0 ≠ StatVal.nan := by
  refine ⟨by decide, by decide, by decide⟩

theorem mem_validVals {col : List (Option ℚ)} {c : ℚ}
    (h : some c ∈ col) : c ∈ validVals col := by
  unfold validVals
  exact List.mem_filterMap.mpr ⟨some c, h, rfl⟩

theorem validVals_const {c : ℚ} (col : List (Option ℚ))
    (hall : ∀ x ∈ col, x = none ∨ x = some c) :
    validVals col = List.replicate (validVals col).length c := by
  apply List.eq_replicate_of_mem
  intro b hb
  rcases List.mem_filterMap.mp hb with ⟨a, ha, hfa⟩
  rcases hall a ha with h | h <;> subst h
  · cases hfa
  · cases hfa
    rfl

theorem foldl_min_replicate (c : ℚ) :
    ∀ m : ℕ, (List.replicate m c).foldl min c = c := by
  intro m
  induction m with
  | zero => rfl
  | succ k ih => simpa [List.replicate_succ, min_self] using ih

theorem foldl_max_replicate (c : ℚ) :
    ∀ m : ℕ, (List.replicate m c).foldl max c = c := by
  intro m
  induction m with
  | zero => rfl
  | succ k ih => simpa [List.replicate_succ, max_self] using ih

theorem sum_replicate_q (k : ℕ) (c : ℚ) :
    (List.replicate k c).sum = (k : ℚ) * c := by
  simp [List.sum_replicate, nsmul_eq_mul]

/-- Amended claim C5: for a numeric (non-time) column whose non-missing
cells all equal `c` (with at least one non-missing cell), Min and Max
are `c`, and the dispersion `sqrt(var)/mean = sqrt(0)/c = 0/c` is `0`
when `c ≠ 0`; it is NaN (the float `0/0`) only when `c = 0`. -/
theorem C5_constant_column (c : ℚ) (name : String) (col : List (Option ℚ))
    (hall : ∀ x ∈ col, x = none ∨ x = some c) (hmem : some c ∈ col) :
    minVec (modelGroups [(⟨name, VarKind.continuous⟩, col)] [] [])
      = [StatVal.val c]
    ∧ maxVec (modelGroups [(⟨name, VarKind.continuous⟩, col)] [] [])
      = [StatVal.val c]
    ∧ dispersionVec (modelGroups [(⟨name, VarKind.continuous⟩, col)] [] [])
      = [if c = 0 then StatVal.nan else StatVal.val 0] := by
  have hc : col.length ≠ 0 := by
    have hne := List.ne_nil_of_mem hmem
    intro h0
    exact hne (List.eq_nil_of_length_eq_zero h0)
  have hvmem : c ∈ validVals col := mem_validVals hmem
  have hvnil : validVals col ≠ [] := List.ne_nil_of_mem hvmem
  obtain ⟨m, hm⟩ : ∃ m, (validVals col).length = m + 1 := by
    rcases h : (validVals col).length with _ | m
    · exact absurd (List.eq_nil_of_length_eq_zero h) hvnil
    · exact ⟨m, rfl⟩
  have hcons : validVals col = c :: List.replicate m c := by
    have h := validVals_const col hall
    rw [hm, List.replicate_succ] at h
    exact h
  have hdiv : (c :: List.replicate m c).sum
      / ((c :: List.replicate m c).length : ℚ) = c := by
    have hs : (c :: List.replicate m c).sum = ((m : ℚ) + 1) * c := by
      rw [← List.replicate_succ, sum_replicate_q]
      push_cast
      ring
    have hl : (((c :: List.replicate m c).length : ℕ) : ℚ) = (m : ℚ) + 1 := by
      simp only [List.length_cons, List.length_replicate]
      push_cast
      ring
    have hne : ((m : ℚ) + 1) ≠ 0 := by positivity
    rw [hs, hl, mul_div_cancel_left₀ _ hne]
  have hmean : nanmeanQ col = some c := by
    rw [nanmeanQ, hcons]
    show some ((c :: List.replicate m c).sum
      / ((c :: List.replicate m c).length : ℚ)) = some c
    rw [hdiv]
  have hvar : nanvarQ col = some 0 := by
    rw [nanvarQ, hcons]
    show some (((c :: List.replicate m c).map
        (fun x => (x - (c :: List.replicate m c).sum
          / ((c :: List.replicate m c).length : ℚ)) ^ 2)).sum
      / ((c :: List.replicate m c).length : ℚ)) = some 0
    simp only [hdiv]
    have hmap : (c :: List.replicate m c).map (fun x => (x - c) ^ 2)
        = List.replicate (m + 1) 0 := by
      rw [← List.replicate_succ, List.map_replicate]
      simp
    rw [hmap]
    simp
  have hminv : nanminQ col = some c := by
    rw [nanminQ, hcons]
    show some ((List.replicate m c).foldl min c) = some c
    rw [foldl_min_replicate]
  have hmaxv : nanmaxQ col = some c := by
    rw [nanmaxQ, hcons]
    show some ((List.replicate m c).foldl max c) = some c
    rw [foldl_max_replicate]
  have hcs := computeStat_singleton ⟨name, VarKind.continuous⟩ col
  refine ⟨?_, ?_, ?_⟩
  · simp only [minVec, hcs _ _ _ _ rfl hc]
    simp [computeStatGroup, applyReducer, kindSize, hc, minStat, ofOptQ,
      hminv]
  · simp only [maxVec, hcs _ _ _ _ rfl hc]
    simp [computeStatGroup, applyReducer, kindSize, hc, maxStat, ofOptQ,
      hmaxv]
  · simp only [dispersionVec, hcs _ _ _ _ rfl hc]
    simp [computeStatGroup, applyReducer, kindSize, hc, cvStat, hvar, hmean]

/-- Witness for the amended C5 on the test file's `continuous_same`
column `[3, 3, 3, 3, 3]`. -/
theorem C5_constant_column_witness :
    minVec (modelGroups
        [(⟨"continuous_same", VarKind.continuous⟩,
          List.replicate 5 (some (3 : ℚ)))] [] [])
      = [StatVal.val 3]
    ∧ dispersionVec (modelGroups
        [(⟨"continuous_same", VarKind.continuous⟩,
          List.replicate 5 (some (3 : ℚ)))] [] [])
      = [StatVal.val 0] := by
  have h := C5_constant_column 3 "continuous_same"
    (List.replicate 5 (some (3 : ℚ)))
    (by intro x hx; right; simpa using List.eq_of_mem_replicate hx)
    (by simp [List.mem_replicate])
  refine ⟨h.1, ?_⟩
  have h3 : (3 : ℚ) ≠ 0 := by norm_num
  simpa [h3] using h.2.2

/-- Counterexample to claim C5 as stated: the constant column
`[3, 3, 3, 3, 3]` has Dispersion `0/3 = 0.0`, not `0/0 = NaN`. -/
theorem C5_counterexample :
    dispersionVec (modelGroups
        [(⟨"continuous_same", VarKind.continuous⟩,
          List.replicate 5 (some (3 : ℚ)))] [] [])
      = [StatVal.val 0]
    ∧ StatVal.val 0 ≠ StatVal.nan := by
  constructor
  · norm_num [dispersionVec, computeStat, modelGroups, filterAttributes,
      hiddenKind, groupSize, computeStatGroup, applyReducer, kindSize, cvStat,
      nanvarQ, nanmeanQ, validVals, List.replicate_succ, List.filterMap_cons,
      List.filterMap_nil, List.map_cons, List.map_nil, List.sum_cons,
      List.sum_nil]
  · decide

/-! ### `get_statistics_matrix` -/

/-- Result of `get_statistics_matrix`: a bare matrix, or column labels
plus the matrix when `return_labels` is requested (and reached). -/
inductive StatsResult where
  | mat : List (List StatVal) → StatsResult
  | labeled : List String → List (List StatVal) → StatsResult
deriving DecidableEq

/-- The statistic column labels used by `get_statistics_matrix`. -/
def statLabels : List String := ["Center", "Dispersion", "Min.", "Max.", "Missing"]

/-- Total number of visible columns across the model's groups. -/
def nGroupsCols (groups : List (List (Var × List (Option ℚ)))) : ℕ :=
  (groups.map List.length).sum

/-- One row of the stacked statistics matrix
(`np.vstack((center, dispersion, min, max, missing)).T`) for source
row `i`. -/
def statsRow (groups : List (List (Var × List (Option ℚ)))) (i : ℕ) :
    List StatVal :=
  [(centerVec groups).getD i StatVal.nan,
    (dispersionVec groups).getD i StatVal.nan,
    (minVec groups).getD i StatVal.nan,
    (maxVec groups).getD i StatVal.nan,
    (missingVec groups).getD i StatVal.nan]

/-- The statistics matrix restricted to the requested source rows. -/
def statsMatrixRows (groups : List (List (Var × List (Option ℚ))))
    (indices : List ℕ) : List (List StatVal) :=
  indices.map (statsRow groups)

/-- `FeatureStatisticsTableModel.get_statistics_matrix`.  With no table
set it returns `np.atleast_2d([])`, the 1-by-0 float matrix, encoded
here as `mat [[]]` (one row of zero entries), before the
`return_labels` flag is even consulted.  Otherwise the requested
variables (already translated to source-row indices by
`domain.index`) select rows of the stacked matrix; a missing or empty
variable list selects everything. -/
def getStatisticsMatrix (table : Option (List (List (Var × List (Option ℚ)))))
    (varSel : Option (List ℕ)) (returnLabels : Bool) : StatsResult :=
  match table with
  | none => StatsResult.mat [[]]
  | some groups =>
      let indices :=
        match varSel with
        | some vs => if vs.isEmpty then List.range (nGroupsCols groups) else vs
        | none => List.range (nGroupsCols groups)
      if returnLabels then
        StatsResult.labeled statLabels (statsMatrixRows groups indices)
      else StatsResult.mat (statsMatrixRows groups indices)

/-! ### The `data()` bounds guard -/

/-- The bounds check of `FeatureStatisticsTableModel.data`
(`if not 0 <= row <= self.n_attributes: return QVariant()`), which
accepts a row exactly when `0 <= row <= n_attributes`. -/
def dataRowGuard (nAttrs row : ℤ) : Bool :=
  decide (0 ≤ row) && decide (row ≤ nAttrs)

/-- The valid source rows are `[0, n_attributes)`. -/
def validSourceRow (nAttrs row : ℤ) : Prop := 0 ≤ row ∧ row < nAttrs

/-! ### Widget state: `set_data`, selection contexts, `commit`

`closeContext` / `openContext` belong to the host framework's
`DomainContextHandler`; they are modelled from the spec: closing saves
the current settings keyed by the current dataset's domain, opening a
dataset with a previously saved context restores its settings.
Datasets are identified by their domain key. -/

/-- Widget state: the active dataset (by domain key), the
`selected_rows` setting, and the saved contexts. -/
structure WState where
  data : Option ℕ
  selected : List ℕ
  contexts : List (ℕ × List ℕ)
deriving DecidableEq

/-- Modelled from the spec: `closeContext` stores the live settings
into the context of the currently open dataset, most recent first. -/
def closeContextW (s : WState) : WState :=
  match s.data with
  | none => s
  | some d =>
      { s with contexts :=
          (d, s.selected) :: s.contexts.filter (fun p => p.1 != d) }

/-- Modelled from the spec: `openContext` restores the saved settings
of the (new) current dataset when a matching context exists, and
otherwise keeps the defaults. -/
def openContextW (s : WState) : WState :=
  match s.data with
  | none => s
  | some d =>
      match s.contexts.lookup d with
      | some sel => { s with selected := sel }
      | none => s

/-- `on_select` stores the selection (in source-row space). -/
def selectRowsW (s : WState) (rows : List ℕ) : WState :=
  { s with selected := rows }

/-- `OWFeatureStatistics.set_data`: close the current context, clear
`selected_rows`, install the new dataset, reopen its context. -/
def setDataW (s : WState) (d : Option ℕ) : WState :=
  openContextW { closeContextW s with selected := [], data := d }

/-! ### `commit` -/

/-- The reduced-data output of `commit`: `None` for an empty selection,
otherwise the dataset sliced to the selected variables
(`self.model.variables[self.selected_rows]`; the slice is represented
by the selected variables, and selections hold valid source rows). -/
def commitReduced (selected : List ℕ) (vars : List Var) :
    Option (List Var) :=
  if selected.isEmpty then none
  else some (selected.filterMap (fun i => vars[i]?))

/-- The statistics output of `commit`: `None` for an empty selection,
otherwise the labelled statistics matrix of the selected variables
(`get_statistics_matrix(variables, return_labels=True)`). -/
def commitStatistics (selected : List ℕ)
    (groups : List (List (Var × List (Option ℚ)))) :
    Option (List String × List (List StatVal)) :=
  if selected.isEmpty then none
  else
    match getStatisticsMatrix (some groups) (some selected) true with
    | StatsResult.labeled ls m => some (ls, m)
    | StatsResult.mat m => some (statLabels, m)

/-! ### Context lookup helper lemmas -/

theorem lookup_filter_ne (d k : ℕ) (cs : List (ℕ × List ℕ)) (hne : k ≠ d) :
    (cs.filter (fun p => p.1 != d)).lookup k = cs.lookup k := by
  induction cs with
  | nil => rfl
  | cons hd t ih =>
      rcases hd with ⟨k1, v1⟩
      by_cases h1 : k1 = d
      · subst h1
        have hk : (k == k1) = false := by
          simp [hne]
        simp [List.filter_cons, List.lookup, hk, ih]
      · by_cases h2 : k = k1
        · subst h2
          simp [List.filter_cons, List.lookup, h1]
        · have hk : (k == k1) = false := by simp [h2]
          simp [List.filter_cons, List.lookup, h1, hk, ih]

theorem setDataW_selected_eq (s : WState) (dB : ℕ)
    (hdiff : s.data ≠ some dB) :
    (setDataW s (some dB)).selected =
      match s.contexts.lookup dB with
      | none => []
      | some sel => sel := by
  unfold setDataW
  cases hsd : s.data with
  | none =>
      have hclose : closeContextW s = s := by
        unfold closeContextW
        rw [hsd]
      rw [hclose]
      unfold openContextW
      cases hl : s.contexts.lookup dB <;> simp [hl]
  | some d0 =>
      have hne : dB ≠ d0 := by
        intro h
        exact hdiff (by rw [hsd, h])
      have hclose : closeContextW s =
          { s with contexts :=
              (d0, s.selected) :: s.contexts.filter (fun p => p.1 != d0) } := by
        unfold closeContextW
        rw [hsd]
      rw [hclose]
      unfold openContextW
      have hdb : (dB == d0) = false := by simp [hne]
      simp only [List.lookup, hdb]
      rw [lookup_filter_ne d0 dB _ hne]
      cases hl : s.contexts.lookup dB <;> simp [hl]

/-- Amended claim C6: replacing the active dataset with a dataset that
has no previously saved selection context (in particular, any dataset
never seen before) resets the selection to empty; replacing it with a
previously seen dataset restores the selection saved for that dataset. -/
theorem C6_selection_reset_and_restore (s : WState) (dB : ℕ)
    (hdiff : s.data ≠ some dB) :
    (s.contexts.lookup dB = none → (setDataW s (some dB)).selected = [])
    ∧ (∀ sel, s.contexts.lookup dB = some sel →
        (setDataW s (some dB)).selected = sel) := by
  constructor
  · intro hl
    rw [setDataW_selected_eq s dB hdiff, hl]
  · intro sel hl
    rw [setDataW_selected_eq s dB hdiff, hl]

/-- Witness for the amended C6: with dataset 0 active, selection `[0]`,
and a context saved for dataset 1 with selection `[2]`, switching to
the unseen dataset 2 clears the selection and switching to dataset 1
restores `[2]`. -/
theorem C6_selection_reset_and_restore_witness :
    (setDataW ⟨some 0, [0], [(1, [2])]⟩ (some 2)).selected = []
    ∧ (setDataW ⟨some 0, [0], [(1, [2])]⟩ (some 1)).selected = [2] :=
  ⟨(C6_selection_reset_and_restore ⟨some 0, [0], [(1, [2])]⟩ 2
      (by decide)).1 (by decide),
    (C6_selection_reset_and_restore ⟨some 0, [0], [(1, [2])]⟩ 1
      (by decide)).2 [2] (by decide)⟩

/-- Counterexample to claim C6 as stated: run the widget through
dataset A (key 0, select row 0), dataset B (key 1, select row 1), back
to A (the selection `[0]` is restored), and then replace A by the
different dataset B again: the selection becomes the restored `[1]`,
not the empty selection the claim demands for every replacement by a
different dataset. -/
theorem C6_counterexample :
    (setDataW (setDataW (selectRowsW (setDataW (selectRowsW (setDataW
        ⟨none, [], []⟩ (some 0)) [0]) (some 1)) [1]) (some 0)) (some 1)).selected
      = [1]
    ∧ (setDataW (selectRowsW (setDataW (selectRowsW (setDataW
        ⟨none, [], []⟩ (some 0)) [0]) (some 1)) [1]) (some 0)).data = some 0
    ∧ ([1] : List ℕ) ≠ [] := by
  decide

/-- Claim C7: committing an empty selection sends `None` on both the
reduced-data output and the statistics output; committing any
non-empty selection sends an actual value on both. -/
theorem C7_empty_selection_sends_none (selected : List ℕ) (vars : List Var)
    (groups : List (List (Var × List (Option ℚ)))) :
    (selected = [] →
      commitReduced selected vars = none
      ∧ commitStatistics selected groups = none)
    ∧ (selected ≠ [] →
      (commitReduced selected vars).isSome = true
      ∧ (commitStatistics selected groups).isSome = true) := by
  constructor
  · intro h
    subst h
    exact ⟨rfl, rfl⟩
  · intro h
    have hsel : selected.isEmpty = false := by
      cases hs : selected with
      | nil => exact absurd hs h
      | cons a t => rfl
    constructor
    · simp [commitReduced, hsel]
    · simp only [commitStatistics, hsel, Bool.false_eq_true, if_false]
      cases getStatisticsMatrix (some groups) (some selected) true <;> simp

/-- Witness for C7: the empty selection yields `None` on both outputs,
and the selection `[0]` yields a value on both. -/
theorem C7_empty_selection_sends_none_witness :
    (commitReduced [] [] = none ∧ commitStatistics [] [] = none)
    ∧ ((commitReduced [0] [⟨"x", VarKind.continuous⟩]).isSome = true
      ∧ (commitStatistics [0] []).isSome = true) :=
  ⟨(C7_empty_selection_sends_none [] [] []).1 rfl,
    ⟨((C7_empty_selection_sends_none [0] [⟨"x", VarKind.continuous⟩] []).2
        (by decide)).1,
      ((C7_empty_selection_sends_none [0] [] []).2 (by decide)).2⟩⟩

/-- Claim C8 at the failing input: for every model size `n`, the bounds
check of `data()` accepts row `n` (`0 <= n <= n_attributes` holds),
although row `n` is outside the valid range `[0, n_attributes)`; the
subsequent `self.variables[row]` lookup then fails with an IndexError
instead of the InvalidIndex rejection the check is meant to produce. -/
theorem C8_bounds_guard_off_by_one (n : ℕ) :
    dataRowGuard (n : ℤ) (n : ℤ) = true ∧ ¬ validSourceRow (n : ℤ) (n : ℤ) := by
  constructor
  · simp [dataRowGuard]
  · unfold validSourceRow
    omega

/-- Claim C9 at the failing input: a dataset holding one continuous
attribute and zero instances is processed without error, but every
statistics vector comes out empty (the group of matrix size 0 is
dropped before the reducers run) while `n_attributes` is 1 — the
length invariant `len(vector) == n_attributes` is violated. -/
theorem C9_zero_instances_break_invariant :
    centerVec (modelGroups
        [(⟨"a", VarKind.continuous⟩, ([] : List (Option ℚ)))] [] []) = []
    ∧ dispersionVec (modelGroups
        [(⟨"a", VarKind.continuous⟩, ([] : List (Option ℚ)))] [] []) = []
    ∧ minVec (modelGroups
        [(⟨"a", VarKind.continuous⟩, ([] : List (Option ℚ)))] [] []) = []
    ∧ maxVec (modelGroups
        [(⟨"a", VarKind.continuous⟩, ([] : List (Option ℚ)))] [] []) = []
    ∧ missingVec (modelGroups
        [(⟨"a", VarKind.continuous⟩, ([] : List (Option ℚ)))] [] []) = []
    ∧ nAttributes [(⟨"a", VarKind.continuous⟩, ([] : List (Option ℚ)))] [] []
      = 1 := by
  decide

/-- Claim C10: with no dataset set, `get_statistics_matrix` returns the
empty two-dimensional `np.atleast_2d([])` matrix (one row, zero
columns) for every combination of the `variables` and `return_labels`
arguments, rather than raising. -/
theorem C10_no_table_empty_matrix (varSel : Option (List ℕ))
    (returnLabels : Bool) :
    getStatisticsMatrix none varSel returnLabels = StatsResult.mat [[]] :=
  rfl

/-- Witness for C8 at `n_attributes = 1`: the guard accepts row 1 even
though only row 0 is valid. -/
theorem C8_bounds_guard_off_by_one_witness :
    dataRowGuard (1 : ℤ) (1 : ℤ) = true ∧ ¬ validSourceRow (1 : ℤ) (1 : ℤ) :=
  C8_bounds_guard_off_by_one 1
